import Mathlib

/-!
Verification development for the Probe Builder application (`src/app.js`):
an arbitrary-depth operation tree with structural mutations
(insert / move / delete) and a context-carrying recursive G-code emitter.

The JavaScript source is shallowly embedded:
* a JS node object becomes the inductive `Node`; the presence or absence of
  its `children` array is an `Option (List Node)`;
* the in-place mutations of the tree become functions from the tree to the
  updated tree (a mutation of the object found by `getNode` becomes an
  update of the first node found in the same pre-order traversal);
* parameter scalars are carried as the strings they interpolate to in the
  emitted text (`params` is an association list from key to string);
* the mutable label counter of an emission context is threaded explicitly:
  `emitNode` returns the emitted lines together with the updated counter of
  the context object it was handed.
-/

/-- One operation instance: `id`, `toolId`, `params`, and the optional
`children` array (`none` when the JS object has no `children` property). -/
inductive Node where
  | mk : String → String → List (String × String) → Option (List Node) → Node
deriving Repr

namespace Node

def id : Node → String
  | mk i _ _ _ => i

def toolId : Node → String
  | mk _ t _ _ => t

def params : Node → List (String × String)
  | mk _ _ p _ => p

def children : Node → Option (List Node)
  | mk _ _ _ c => c

/-- `node.children || []` — the children array, or `[]` when absent. -/
def kids : Node → List Node
  | mk _ _ _ none => []
  | mk _ _ _ (some cs) => cs

end Node

/-- All ids occurring in a forest, in pre-order (the traversal order of
`walk` in the source). -/
def idsOf : List Node → List String
  | [] => []
  | Node.mk i _ _ none :: rest => i :: idsOf rest
  | Node.mk i _ _ (some cs) :: rest => i :: (idsOf cs ++ idsOf rest)

/-- The ids of one node's whole subtree: the node's own id and every id
below it. -/
def Node.subIds : Node → List String
  | .mk i _ _ none => [i]
  | .mk i _ _ (some cs) => i :: idsOf cs

theorem idsOf_cons (n : Node) (rest : List Node) :
    idsOf (n :: rest) = n.subIds ++ idsOf rest := by
  cases n with
  | mk i t p c => cases c <;> simp [idsOf, Node.subIds]

theorem Node.sizeOf_kids_lt (n : Node) : sizeOf n.kids < sizeOf n := by
  cases n with
  | mk i t p c =>
    cases c with
    | none => simp [Node.kids]
    | some cs => simp [Node.kids]; omega

/-- `getNode(id)`: first node with the given id in the pre-order traversal
of `walk` (a node is visited before its children, children before later
siblings). -/
def getNode (id : String) : List Node → Option Node
  | [] => none
  | n :: rest =>
    if n.id = id then some n
    else
      match getNode id n.kids with
      | some m => some m
      | none => getNode id rest
termination_by l => sizeOf l
decreasing_by
  all_goals simp_wf
  all_goals have := Node.sizeOf_kids_lt n
  all_goals omega

/-- The level scan of `removeNode`: `list.findIndex(n => n.id === id)`
followed by `splice(i, 1)`, returning the removed node and the remaining
level if some node of this level carries the id. -/
def spliceById (id : String) : List Node → Option (Node × List Node)
  | [] => none
  | n :: rest =>
    if n.id = id then some (n, rest)
    else
      match spliceById id rest with
      | some (m, rest') => some (m, n :: rest')
      | none => none

mutual

/-- `removeNode(id, list)`: scan the current level first; if absent there,
recurse into the children of each node in order. Returns the detached
subtree (or `none`) together with the list after the in-place splice. -/
def removeNode (id : String) (l : List Node) : Option Node × List Node :=
  match spliceById id l with
  | some (n, rest) => (some n, rest)
  | none => removeScan id l

/-- The `for (const n of list) if (n.children) …` recursion of
`removeNode`: try each node's children array in order. -/
def removeScan (id : String) : List Node → Option Node × List Node
  | [] => (none, [])
  | Node.mk i t p (some cs) :: rest =>
    match removeNode id cs with
    | (some m, cs') => (some m, Node.mk i t p (some cs') :: rest)
    | (none, _) =>
      let r := removeScan id rest
      (r.1, Node.mk i t p (some cs) :: r.2)
  | Node.mk i t p none :: rest =>
    let r := removeScan id rest
    (r.1, Node.mk i t p none :: r.2)

end

/-- Insert into a list at a (non-negative, already normalized) position;
positions beyond the end append. -/
def insertAt {α : Type} (i : Nat) (x : α) : List α → List α
  | [] => [x]
  | y :: ys =>
    match i with
    | 0 => x :: y :: ys
    | j + 1 => y :: insertAt j x ys

/-- `list.splice(index, 0, x)` preceded by the source's
`if (index > length) index = length` clamp: a negative index counts back
from the end (clamped at the front), a too-large index appends. -/
def jsSplice {α : Type} (l : List α) (i : Int) (x : α) : List α :=
  insertAt (if i < 0 then ((l.length : Int) + i).toNat else min i.toNat l.length) x l

/-- The first-pre-order-match functional reading of
`const parent = getNode(parentId); if (!parent.children) parent.children = [];
parent.children.splice(index, 0, node)`: walk in `getNode` order, update the
first node carrying `pid`, and report whether one was found. -/
def insertInto (pid : String) (x : Node) (i : Int) : List Node → List Node × Bool
  | [] => ([], false)
  | Node.mk nid t p c :: rest =>
    if nid = pid then
      (Node.mk nid t p (some (jsSplice (match c with | some cs => cs | none => []) i x)) :: rest, true)
    else
      match c with
      | some cs =>
        let inner := insertInto pid x i cs
        if inner.2 then (Node.mk nid t p (some inner.1) :: rest, true)
        else
          let r := insertInto pid x i rest
          (Node.mk nid t p (some cs) :: r.1, r.2)
      | none =>
        let r := insertInto pid x i rest
        (Node.mk nid t p none :: r.1, r.2)

/-- `insertNode(node, parentId, index)`: at root when `parentId` is
`"root"` or falsy (the empty string); otherwise into the children of the
first node `getNode` finds, silently unchanged when none is found. -/
def insertNode (x : Node) (pid : String) (i : Int) (tree : List Node) : List Node :=
  if pid = "root" ∨ pid = "" then jsSplice tree i x
  else (insertInto pid x i tree).1

/-- `isDescendant(maybeAncestorId, id)`: walk `anc?.children || []` looking
for `id`. -/
def isDescendant (maybeAncestorId id : String) (tree : List Node) : Bool :=
  match getNode maybeAncestorId tree with
  | none => false
  | some anc => (getNode id anc.kids).isSome

/-- `moveNode(id, targetParentId, index)`: two silent rejection guards,
then remove + insert. -/
def moveNode (id targetParentId : String) (index : Int) (tree : List Node) : List Node :=
  if id = targetParentId then tree
  else if targetParentId ≠ "root" ∧ isDescendant id targetParentId tree then tree
  else
    match removeNode id tree with
    | (none, _) => tree
    | (some node, tree') => insertNode node targetParentId index tree'

/-- The collection state: the forest plus the auxiliary UI-metadata sets
keyed by id (`state.collapsed`, `state.expanded`), modelled as lists of
distinct ids. -/
structure AppState where
  tree : List Node
  collapsed : List String
  expanded : List String
deriving Repr

/-- `deleteNode(id)` once the confirmation prompt has authorized the
removal: detach the subtree, then delete the id itself from the two
auxiliary sets (`state.expanded.delete(id); state.collapsed.delete(id)`). -/
def deleteNode (id : String) (s : AppState) : AppState :=
  match getNode id s.tree with
  | none => s
  | some _ =>
    { tree := (removeNode id s.tree).2,
      collapsed := s.collapsed.erase id,
      expanded := s.expanded.erase id }

/-- `countTree(list)`: `(ops, total)` — non-container nodes and all nodes. -/
def countAll : List Node → Nat
  | [] => 0
  | Node.mk _ _ _ none :: rest => 1 + countAll rest
  | Node.mk _ _ _ (some cs) :: rest => 1 + countAll cs + countAll rest

/-- A catalog entry as far as the tree/emitter core consults it: its key
and its container flag (the `gcode` callbacks are embedded as the dispatch
inside `emitNode`, since they close over the recursive child-emission
helper). -/
structure ToolDef where
  id : String
  container : Bool
deriving Repr, DecidableEq

/-- The `TOOLS` registry of `src/app.js`, restricted to the fields the
embedded core reads. -/
def TOOLS : List ToolDef :=
  [⟨"folder", true⟩, ⟨"if-block", true⟩, ⟨"while-block", true⟩,
   ⟨"set-work-offset", false⟩, ⟨"tool-change", false⟩, ⟨"rapid-move", false⟩,
   ⟨"single-touch-axis", false⟩, ⟨"web-pocket", false⟩, ⟨"safe-approach", false⟩]

/-- `TOOL_BY_ID[toolId]` — catalog lookup. -/
def TOOL_BY_ID (tid : String) : Option ToolDef :=
  TOOLS.find? (fun t => t.id = tid)

/-- Property read `op.params.k` on the association list. -/
def pfind (ps : List (String × String)) (k : String) : Option String :=
  match ps with
  | [] => none
  | (k', v) :: rest => if k' = k then some v else pfind rest k

/-- Template interpolation of `op.params.k`: a missing property is the
JavaScript `undefined`, which interpolates as the text `undefined`. -/
def pstr (ps : List (String × String)) (k : String) : String :=
  match pfind ps k with
  | none => "undefined"
  | some v => v

/-- `op.params.k || d` — the JS falsy-or: a missing property or the empty
string falls back to the default. -/
def porD (ps : List (String × String)) (k d : String) : String :=
  match pfind ps k with
  | none => d
  | some v => if v = "" then d else v

/-- `ctx.line(s)`: two spaces of leading whitespace per indent level. -/
def lineAt (indent : Nat) (s : String) : String :=
  String.join (List.replicate indent "  ") ++ s

mutual

/-- `emitNode(node, ctx)`. An unresolved `toolId` yields one diagnostic
comment line at the current indent. Otherwise the catalog's `gcode`
callback for the kind runs (the per-kind callbacks of the `TOOLS` registry
are embedded as the dispatch on `toolId` below): its `nextLabel` consumes
from the caller's mutable counter (`seed`, returned updated) while child
emission forks from the value the wrapper context captured at entry;
finally every returned line is passed through `ctx.line` at the caller's
indent (`l ? ctx.line(l) : ctx.line("")`). -/
def emitNode (n : Node) (indent loopDepth seed : Nat) : List String × Nat :=
  match TOOL_BY_ID n.toolId with
  | none => ([lineAt indent ("; Unknown node " ++ n.toolId)], seed)
  | some _ =>
    let res := emitRaw n indent loopDepth seed
    (res.1.map (fun l => if l = "" then lineAt indent "" else lineAt indent l), res.2)
termination_by (sizeOf n, 1)

/-- The per-kind `gcode(op, ctx)` callbacks of the `TOOLS` registry,
dispatched on `toolId` exactly as `TOOL_BY_ID[node.toolId].gcode` does.
Returns the raw lines and the updated label counter of the caller's
context. -/
def emitRaw (n : Node) (indent loopDepth seed : Nat) : List String × Nat :=
  if n.toolId = "folder" then
    let nm := (porD n.params "name" "SECTION").toUpper
    ((";===== " ++ nm ++ " =====") ::
      (emitChildren n.kids indent loopDepth seed 0 ++
        [";===== END " ++ nm ++ " =====", ""]), seed)
  else if n.toolId = "if-block" then
    let lid := toString seed
    (("IF [" ++ pstr n.params "left" ++ " " ++ pstr n.params "op" ++ " " ++
        pstr n.params "right" ++ "] GOTO " ++ lid) ::
      "; (IF false → skip children)" ::
      ("GOTO " ++ lid ++ "_END") ::
      ("N" ++ lid) ::
      (emitChildren n.kids indent loopDepth seed 1 ++
        ["N" ++ lid ++ "_END", ""]), seed + 1)
  else if n.toolId = "while-block" then
    let i := min (loopDepth + 1) 9
    (("WHILE [" ++ pstr n.params "left" ++ " " ++ pstr n.params "op" ++ " " ++
        pstr n.params "right" ++ "] DO" ++ toString i) ::
      (emitChildren n.kids indent loopDepth seed 1 ++
        ["END" ++ toString i, ""]), seed)
  else if n.toolId = "set-work-offset" then
    let off := pstr n.params "offset"
    ([if off = "G154" then off ++ " P" ++ pstr n.params "P" else off, ""], seed)
  else if n.toolId = "tool-change" then
    (["T" ++ pstr n.params "toolNumber" ++ " M6",
      "S" ++ pstr n.params "spindleSpeed" ++ " M3",
      pstr n.params "coolant", ""], seed)
  else if n.toolId = "rapid-move" then
    (["G0 X" ++ pstr n.params "X" ++ " Y" ++ pstr n.params "Y" ++
        " Z" ++ pstr n.params "Z", ""], seed)
  else if n.toolId = "single-touch-axis" then
    let ax := ((pfind n.params "axis").getD "X").toUpper
    (["G65 P9811 " ++ ax ++ (pfind n.params "distance").getD "-10" ++
        " F" ++ (pfind n.params "feed").getD "10", ""], seed)
  else if n.toolId = "web-pocket" then
    let z := pfind n.params "Z"
    let isPocket : Bool :=
      pfind n.params "mode" = some "pocket" ∨
        (pfind n.params "mode" = some "auto" ∧ z ≠ none ∧ z ≠ some "")
    ([String.intercalate " "
        (["G65 P9812", "X" ++ pstr n.params "X", "Y" ++ pstr n.params "Y"] ++
          (if isPocket then ["Z" ++ pstr n.params "Z"] else []) ++
          ["W" ++ pstr n.params "W", "L" ++ pstr n.params "L",
            "F" ++ pstr n.params "feed"]), ""], seed)
  else if n.toolId = "safe-approach" then
    (["G65 P9810 X" ++ pstr n.params "X" ++ " Y" ++ pstr n.params "Y" ++
        " Z" ++ pstr n.params "Z" ++ " F" ++ pstr n.params "feed", ""], seed)
  else ([], seed)
termination_by (sizeOf n, 0)
decreasing_by
  all_goals apply Prod.Lex.left
  all_goals exact Node.sizeOf_kids_lt n

/-- `emitChildren(node, ctx, indentDelta)`: each child is emitted with a
fresh `ctx.indented(indentDelta)` fork of the wrapper context — one more
indent level per positive delta, one more loop level for a positive delta,
and the label seed the wrapper captured at entry (each fork restarts
there; a fork's own label consumption is discarded). -/
def emitChildren (children : List Node) (indent loopDepth seedSnapshot : Nat)
    (delta : Nat) : List String :=
  match children with
  | [] => []
  | ch :: rest =>
    (emitNode ch (indent + delta) (loopDepth + (if 0 < delta then 1 else 0))
        seedSnapshot).1 ++
      emitChildren rest indent loopDepth seedSnapshot delta
termination_by (sizeOf children, 2)

end

/-- The body loop of `generateGCode`: every root-level node is emitted with
the one base context, whose label counter the wrappers mutate in sequence. -/
def emitRoots : List Node → Nat → List String
  | [], _ => []
  | n :: rest, seed =>
    let res := emitNode n 0 0 seed
    res.1 ++ emitRoots rest res.2

/-- `generateGCode()`: fixed header (whose date line interpolates the
formatted current date, abstracted here as the argument `dateStr`), the
emission of every root node with the base context `(indent 0, labelSeed
1000, loopDepth 0)`, and a fixed footer, joined with line breaks. -/
def generateGCode (dateStr : String) (tree : List Node) : String :=
  let header :=
    [";Renishaw Probe Routine - Generated by Probe Builder",
     ";Program: PROBE_ROUTINE.NC",
     ";Date: " ++ dateStr,
     "",
     ";Initialize program",
     "G0 G17 G40 G49 G80 G90",
     ""]
  let body := emitRoots tree 1000
  let footer :=
    [";End of probe routine",
     "G0 G53 Z0.",
     "M30",
     ""]
  String.intercalate "\n" (header ++ body ++ footer)

theorem Node.subIds_eq (n : Node) : n.subIds = n.id :: idsOf n.kids := by
  cases n with
  | mk i t p c => cases c <;> simp [Node.subIds, Node.kids, Node.id, idsOf]

theorem idsOf_append : ∀ (l₁ l₂ : List Node),
    idsOf (l₁ ++ l₂) = idsOf l₁ ++ idsOf l₂
  | [], _ => by simp [idsOf]
  | n :: rest, l₂ => by
    rw [List.cons_append, idsOf_cons, idsOf_cons, idsOf_append rest l₂,
      List.append_assoc]

/-- `getNode` misses exactly the ids that are nowhere in the forest. -/
theorem getNode_eq_none_iff (id : String) :
    ∀ (l : List Node), getNode id l = none ↔ id ∉ idsOf l
  | [] => by simp [getNode, idsOf]
  | n :: rest => by
    have hkids := getNode_eq_none_iff id n.kids
    have hrest := getNode_eq_none_iff id rest
    rw [idsOf_cons, Node.subIds_eq]
    by_cases h : n.id = id
    · simp [getNode, h]
    · cases hk : getNode id n.kids with
      | some m =>
        have hin : id ∈ idsOf n.kids := by
          by_contra hc
          rw [hkids.mpr hc] at hk
          exact Option.noConfusion hk
        simp only [getNode, if_neg h]
        rw [hk]
        simp [hin]
      | none =>
        have hnin := hkids.mp hk
        simp only [getNode, if_neg h, hk]
        constructor
        · intro hr hmem
          rcases List.mem_cons.mp hmem with h1 | h2
          · exact h h1.symm
          · rcases List.mem_append.mp h2 with h4 | h5
            · exact hnin h4
            · exact (hrest.mp hr) h5
        · intro hall
          exact hrest.mpr
            (fun hr => hall (List.mem_cons.mpr
              (Or.inr (List.mem_append.mpr (Or.inr hr)))))
termination_by l => sizeOf l
decreasing_by
  all_goals simp_wf
  all_goals have := Node.sizeOf_kids_lt n
  all_goals omega

theorem subIds_ms (n : Node) :
    (n.subIds : Multiset String) = {n.id} + ↑(idsOf n.kids) := by
  cases n with
  | mk i t p c =>
    cases c <;>
      simp [Node.subIds, Node.kids, Node.id, idsOf, ← Multiset.cons_coe,
        ← Multiset.singleton_add]

theorem ids_ms_cons (n : Node) (rest : List Node) :
    (idsOf (n :: rest) : Multiset String) =
      {n.id} + ↑(idsOf n.kids) + ↑(idsOf rest) := by
  rw [idsOf_cons, ← Multiset.coe_add, subIds_ms, add_assoc]

theorem spliceById_none (id : String) :
    ∀ (l : List Node), spliceById id l = none → ∀ n ∈ l, n.id ≠ id
  | [] => by simp
  | n :: rest => by
    by_cases h : n.id = id
    · simp [spliceById, h]
    · cases hs : spliceById id rest with
      | some p =>
        intro hc
        simp [spliceById, h, hs] at hc
      | none =>
        intro _ m hm
        rcases List.mem_cons.mp hm with h1 | h2
        · exact h1 ▸ h
        · exact spliceById_none id rest hs m h2

theorem spliceById_some (id : String) :
    ∀ (l : List Node) (n : Node) (l' : List Node), spliceById id l = some (n, l') →
      n.id = id ∧ (idsOf l : Multiset String) = ↑n.subIds + ↑(idsOf l')
  | [] => by simp [spliceById]
  | m :: rest => by
    intro n l' hs
    by_cases h : m.id = id
    · simp only [spliceById, if_pos h, Option.some_inj, Prod.mk.injEq] at hs
      rcases hs with ⟨rfl, rfl⟩
      exact ⟨h, by rw [idsOf_cons, ← Multiset.coe_add]⟩
    · rw [spliceById, if_neg h] at hs
      cases hr : spliceById id rest with
      | none => rw [hr] at hs; exact Option.noConfusion hs
      | some q =>
        obtain ⟨k, rest'⟩ := q
        rw [hr] at hs
        simp only [Option.some_inj, Prod.mk.injEq] at hs
        obtain ⟨hkn, hl'⟩ := hs
        obtain ⟨hid, hperm⟩ := spliceById_some id rest k rest' hr
        subst hkn
        refine ⟨hid, ?_⟩
        rw [← hl', ids_ms_cons, ids_ms_cons, hperm]
        abel

theorem not_mem_idsOf (id : String) :
    ∀ (l : List Node), (∀ n ∈ l, n.id ≠ id ∧ id ∉ idsOf n.kids) → id ∉ idsOf l
  | [] => by simp [idsOf]
  | n :: rest => by
    intro h
    have h1 := h n (List.mem_cons_self n rest)
    have IH := not_mem_idsOf id rest (fun m hm => h m (List.mem_cons_of_mem _ hm))
    rw [idsOf_cons, Node.subIds_eq]
    intro hmem
    rcases List.mem_cons.mp hmem with h2 | h3
    · exact h1.1 h2.symm
    · rcases List.mem_append.mp h3 with h4 | h5
      · exact h1.2 h4
      · exact IH h5

mutual

theorem removeNode_spec (id : String) (l : List Node) :
    ((removeNode id l).1 = none → (removeNode id l).2 = l ∧ id ∉ idsOf l) ∧
    (∀ n, (removeNode id l).1 = some n →
      n.id = id ∧
        (idsOf l : Multiset String) = ↑n.subIds + ↑(idsOf (removeNode id l).2)) := by
  cases hs : spliceById id l with
  | some p =>
    obtain ⟨n, rest⟩ := p
    have hr : removeNode id l = (some n, rest) := by
      rw [removeNode, hs]
    rw [hr]
    refine ⟨fun h => Option.noConfusion h, fun m hm => ?_⟩
    obtain rfl : n = m := by simpa using hm
    exact spliceById_some id l n rest hs
  | none =>
    have hr : removeNode id l = removeScan id l := by
      rw [removeNode, hs]
    rw [hr]
    have hscan := removeScan_spec id l
    refine ⟨fun h => ?_, hscan.2⟩
    obtain ⟨he, hdeep⟩ := hscan.1 h
    refine ⟨he, not_mem_idsOf id l (fun n hn => ⟨?_, hdeep n hn⟩)⟩
    exact spliceById_none id l hs n hn
termination_by (sizeOf l, 1)

theorem removeScan_spec (id : String) (l : List Node) :
    ((removeScan id l).1 = none → (removeScan id l).2 = l ∧ ∀ n ∈ l, id ∉ idsOf n.kids) ∧
    (∀ n, (removeScan id l).1 = some n →
      n.id = id ∧
        (idsOf l : Multiset String) = ↑n.subIds + ↑(idsOf (removeScan id l).2)) := by
  match l with
  | [] =>
    have h0 : removeScan id [] = ((none : Option Node), ([] : List Node)) := by
      rw [removeScan]
    rw [h0]
    exact ⟨fun _ => ⟨rfl, by simp⟩, fun n hn => Option.noConfusion hn⟩
  | Node.mk i t p (some cs) :: rest =>
    have hsub := removeNode_spec id cs
    cases hrem : removeNode id cs with
    | mk r₁ cs' =>
      rw [hrem] at hsub
      cases r₁ with
      | some m =>
        have hr : removeScan id (Node.mk i t p (some cs) :: rest) =
            (some m, Node.mk i t p (some cs') :: rest) := by
          rw [removeScan, hrem]
        rw [hr]
        refine ⟨fun h => Option.noConfusion h, fun n hn => ?_⟩
        obtain rfl : m = n := by simpa using hn
        obtain ⟨hid, hperm⟩ := hsub.2 m rfl
        simp only at hperm
        refine ⟨hid, ?_⟩
        simp only
        rw [ids_ms_cons, ids_ms_cons]
        simp only [Node.kids, Node.id]
        rw [hperm]
        abel
      | none =>
        have IH := removeScan_spec id rest
        have hr : removeScan id (Node.mk i t p (some cs) :: rest) =
            ((removeScan id rest).1, Node.mk i t p (some cs) :: (removeScan id rest).2) := by
          rw [removeScan, hrem]
        rw [hr]
        constructor
        · intro h
          obtain ⟨he, hdeep⟩ := IH.1 h
          rw [he]
          refine ⟨rfl, fun n hn => ?_⟩
          rcases List.mem_cons.mp hn with h1 | h2
          · subst h1
            have := (hsub.1 rfl).2
            simpa [Node.kids] using this
          · exact hdeep n h2
        · intro n hn
          obtain ⟨hid, hperm⟩ := IH.2 n hn
          refine ⟨hid, ?_⟩
          simp only
          rw [ids_ms_cons, ids_ms_cons]
          simp only [Node.kids, Node.id]
          rw [hperm]
          abel
  | Node.mk i t p none :: rest =>
    have IH := removeScan_spec id rest
    have hr : removeScan id (Node.mk i t p none :: rest) =
        ((removeScan id rest).1, Node.mk i t p none :: (removeScan id rest).2) := by
      rw [removeScan]
    rw [hr]
    constructor
    · intro h
      obtain ⟨he, hdeep⟩ := IH.1 h
      rw [he]
      refine ⟨rfl, fun n hn => ?_⟩
      rcases List.mem_cons.mp hn with h1 | h2
      · subst h1; simp [Node.kids, idsOf]
      · exact hdeep n h2
    · intro n hn
      obtain ⟨hid, hperm⟩ := IH.2 n hn
      refine ⟨hid, ?_⟩
      simp only
      rw [ids_ms_cons, ids_ms_cons]
      simp only [Node.kids, Node.id]
      rw [hperm]
      abel
termination_by (sizeOf l, 0)

end

/-- Node count of a single subtree (the `total` count `countTree` gives it). -/
def nodeCount (n : Node) : Nat := 1 + countAll n.kids

theorem countAll_cons (n : Node) (rest : List Node) :
    countAll (n :: rest) = nodeCount n + countAll rest := by
  cases n with
  | mk i t p c =>
    cases c with
    | none => simp [countAll, nodeCount, Node.kids]
    | some cs =>
      simp [countAll, nodeCount, Node.kids]
      try omega

theorem insertAt_zero {α : Type} (x : α) (l : List α) : insertAt 0 x l = x :: l := by
  cases l <;> rfl

theorem insertAt_length {α : Type} (x : α) :
    ∀ (l : List α), insertAt l.length x l = l ++ [x]
  | [] => rfl
  | y :: ys => by
    simpa [insertAt] using insertAt_length x ys

theorem countAll_insertAt (x : Node) :
    ∀ (j : Nat) (l : List Node), countAll (insertAt j x l) = nodeCount x + countAll l
  | _, [] => by simp [insertAt, countAll_cons, countAll]
  | 0, y :: ys => by rw [insertAt_zero, countAll_cons]
  | j + 1, y :: ys => by
    simp only [insertAt, countAll_cons, countAll_insertAt x j ys]
    omega

theorem countAll_jsSplice (x : Node) (i : Int) (l : List Node) :
    countAll (jsSplice l i x) = nodeCount x + countAll l := by
  rw [jsSplice]
  exact countAll_insertAt x _ l

theorem countAll_nil : countAll [] = 0 := by simp [countAll]

theorem nodeCount_mk_some (i t : String) (p : List (String × String)) (cs : List Node) :
    nodeCount (Node.mk i t p (some cs)) = 1 + countAll cs := by
  simp [nodeCount, Node.kids]

theorem nodeCount_mk_none (i t : String) (p : List (String × String)) :
    nodeCount (Node.mk i t p none) = 1 := by
  simp [nodeCount, Node.kids, countAll_nil]

theorem insertInto_spec (pid : String) (x : Node) (i : Int) :
    ∀ (l : List Node),
      (pid ∉ idsOf l → insertInto pid x i l = (l, false)) ∧
      (pid ∈ idsOf l →
        (insertInto pid x i l).2 = true ∧
        countAll (insertInto pid x i l).1 = nodeCount x + countAll l)
  | [] => by simp [insertInto, idsOf]
  | Node.mk nid t p c :: rest => by
    have hidm : (Node.mk nid t p c).id = nid := rfl
    by_cases h : nid = pid
    · constructor
      · intro hn
        exact absurd (by rw [idsOf_cons, Node.subIds_eq, hidm, h]; simp) hn
      · intro _
        rw [insertInto.eq_def]
        simp only [if_pos h]
        cases c with
        | some cs =>
          refine ⟨by trivial, ?_⟩
          simp only [countAll_cons, nodeCount_mk_some, countAll_jsSplice]
          omega
        | none =>
          refine ⟨by trivial, ?_⟩
          simp only [countAll_cons, nodeCount_mk_some, nodeCount_mk_none,
            countAll_jsSplice, countAll_nil]
          omega
    · have hids : idsOf (Node.mk nid t p c :: rest) =
          nid :: (idsOf (Node.mk nid t p c).kids ++ idsOf rest) := by
        rw [idsOf_cons, Node.subIds_eq, hidm]
        rfl
      cases c with
      | some cs =>
        have IHcs := insertInto_spec pid x i cs
        have IHrest := insertInto_spec pid x i rest
        by_cases hcs : pid ∈ idsOf cs
        · obtain ⟨hflag, hcount⟩ := IHcs.2 hcs
          have hred : insertInto pid x i (Node.mk nid t p (some cs) :: rest) =
              (Node.mk nid t p (some (insertInto pid x i cs).1) :: rest, true) := by
            rw [insertInto.eq_def]
            simp only [if_neg h, hflag, if_true]
          rw [hred]
          constructor
          · intro hn
            exact absurd (by rw [hids]; simp [Node.kids, hcs]) hn
          · intro _
            refine ⟨rfl, ?_⟩
            simp only [countAll_cons, nodeCount_mk_some]
            rw [hcount]
            omega
        · obtain hinner := IHcs.1 hcs
          have hred : insertInto pid x i (Node.mk nid t p (some cs) :: rest) =
              (Node.mk nid t p (some cs) :: (insertInto pid x i rest).1,
                (insertInto pid x i rest).2) := by
            rw [insertInto.eq_def]
            simp only [if_neg h, hinner]
            simp
          rw [hred]
          constructor
          · intro hn
            have hrest : pid ∉ idsOf rest := by
              intro hc
              exact hn (by rw [hids]; simp [hc])
            rw [IHrest.1 hrest]
          · intro hmem
            have hrest : pid ∈ idsOf rest := by
              rw [hids] at hmem
              rcases List.mem_cons.mp hmem with h1 | h2
              · exact absurd h1.symm h
              · rcases List.mem_append.mp h2 with h3 | h4
                · exact absurd (by simpa [Node.kids] using h3) hcs
                · exact h4
            obtain ⟨hflag, hcount⟩ := IHrest.2 hrest
            refine ⟨hflag, ?_⟩
            simp only [countAll_cons]
            rw [hcount]
            omega
      | none =>
        have IHrest := insertInto_spec pid x i rest
        have hred : insertInto pid x i (Node.mk nid t p none :: rest) =
            (Node.mk nid t p none :: (insertInto pid x i rest).1,
              (insertInto pid x i rest).2) := by
          rw [insertInto.eq_def]
          simp only [if_neg h]
        rw [hred]
        constructor
        · intro hn
          have hrest : pid ∉ idsOf rest := by
            intro hc
            exact hn (by rw [hids]; simp [hc])
          rw [IHrest.1 hrest]
        · intro hmem
          have hrest : pid ∈ idsOf rest := by
            rw [hids] at hmem
            rcases List.mem_cons.mp hmem with h1 | h2
            · exact absurd h1.symm h
            · simpa [Node.kids, idsOf] using h2
          obtain ⟨hflag, hcount⟩ := IHrest.2 hrest
          refine ⟨hflag, ?_⟩
          simp only [countAll_cons]
          rw [hcount]
          omega
termination_by l => sizeOf l
decreasing_by
  all_goals simp_wf
  all_goals omega

theorem jsSplice_big {α : Type} (l : List α) (i : Int) (x : α)
    (h : (l.length : Int) ≤ i) : jsSplice l i x = l ++ [x] := by
  rw [jsSplice]
  have h0 : ¬i < 0 := by omega
  rw [if_neg h0]
  have h1 : min i.toNat l.length = l.length := by omega
  rw [h1, insertAt_length]

theorem jsSplice_front {α : Type} (l : List α) (i : Int) (x : α)
    (h : i + (l.length : Int) ≤ 0) : jsSplice l i x = x :: l := by
  rw [jsSplice]
  by_cases h0 : i < 0
  · rw [if_pos h0]
    have h1 : ((l.length : Int) + i).toNat = 0 := by omega
    rw [h1, insertAt_zero]
  · rw [if_neg h0]
    have h1 : l.length = 0 := by omega
    have h2 : min i.toNat l.length = 0 := by omega
    rw [h2, insertAt_zero]

theorem getNode_subIds_subset (id : String) :
    ∀ (l : List Node) (a : Node), getNode id l = some a →
      ∀ x ∈ a.subIds, x ∈ idsOf l
  | [] => by intro a hg; simp [getNode] at hg
  | n :: rest => by
    intro a hg x hx
    rw [idsOf_cons]
    by_cases h : n.id = id
    · rw [getNode, if_pos h] at hg
      obtain rfl : n = a := by simpa using hg
      exact List.mem_append.mpr (Or.inl hx)
    · rw [getNode, if_neg h] at hg
      cases hk : getNode id n.kids with
      | some m =>
        rw [hk] at hg
        obtain rfl : m = a := by simpa using hg
        have hin := getNode_subIds_subset id n.kids m hk x hx
        refine List.mem_append.mpr (Or.inl ?_)
        rw [Node.subIds_eq]
        exact List.mem_cons.mpr (Or.inr hin)
      | none =>
        rw [hk] at hg
        exact List.mem_append.mpr (Or.inr (getNode_subIds_subset id rest a hg x hx))
termination_by l => sizeOf l
decreasing_by
  all_goals simp_wf
  all_goals have := Node.sizeOf_kids_lt n
  all_goals omega

/-- Concrete `if-block` node used in the example trees. -/
def ifNode (id : String) (cs : List Node) : Node :=
  Node.mk id "if-block" [("left", "#100"), ("op", "GT"), ("right", "#101")] (some cs)

/-- Concrete `rapid-move` node used in the example trees. -/
def rapidNode (id : String) : Node :=
  Node.mk id "rapid-move" [("X", "1"), ("Y", "2"), ("Z", "3")] none

/-- Concrete `folder` node used in the example trees. -/
def folderNode (id nm : String) (cs : List Node) : Node :=
  Node.mk id "folder" [("name", nm), ("note", "")] (some cs)

/-- The ids strictly below the node that `id` resolves to: the contents of
its children subtrees (empty when `id` does not resolve). -/
def descendantIds (tree : List Node) (id : String) : List String :=
  match getNode id tree with
  | none => []
  | some a => idsOf a.kids

/-- C2: for every tree, id and index, `moveNode(id, id, index)` leaves the
tree unchanged, and `moveNode(id, d, index)` where `d` is a descendant of
`id` (an id inside the children subtrees of the node `id` resolves to, and
distinct from the root sentinel, as every generated node id is) also leaves
the tree unchanged: both rejection rules are silent no-ops with no error
signaled, so the set of ids, the parent/child relationships and the sibling
order are all preserved exactly. -/
theorem moveNode_self_or_into_descendant_noop (tree : List Node) (id d : String) (idx : Int) :
    moveNode id id idx tree = tree ∧
    (d ∈ descendantIds tree id → d ≠ "root" → moveNode id d idx tree = tree) := by
  refine ⟨by simp [moveNode], fun hmem hroot => ?_⟩
  cases hg : getNode id tree with
  | none => simp [descendantIds, hg] at hmem
  | some a =>
    have hmem' : d ∈ idsOf a.kids := by
      simpa [descendantIds, hg] using hmem
    by_cases hid : id = d
    · simp [moveNode, hid]
    · have hdesc : isDescendant id d tree = true := by
        simp only [isDescendant, hg]
        rw [Option.isSome_iff_ne_none]
        intro hnone
        exact (getNode_eq_none_iff d a.kids).mp hnone hmem'
      simp [moveNode, hid, hroot, hdesc]

theorem moveNode_self_or_into_descendant_noop_witness :
    ("c" ∈ descendantIds [folderNode "f" "S" [rapidNode "c"]] "f" ∧ "c" ≠ "root") ∧
    moveNode "f" "f" 2 [folderNode "f" "S" [rapidNode "c"]] =
      [folderNode "f" "S" [rapidNode "c"]] ∧
    moveNode "f" "c" 2 [folderNode "f" "S" [rapidNode "c"]] =
      [folderNode "f" "S" [rapidNode "c"]] := by
  have h := moveNode_self_or_into_descendant_noop
    [folderNode "f" "S" [rapidNode "c"]] "f" "c" 2
  have hmem : "c" ∈ descendantIds [folderNode "f" "S" [rapidNode "c"]] "f" := by
    simp [descendantIds, getNode, folderNode, rapidNode, Node.id, Node.kids, idsOf]
  have hroot : "c" ≠ "root" := by decide
  exact ⟨⟨hmem, hroot⟩, h.1, h.2 hmem hroot⟩

/-- C4: once `removeNode(id)` has detached a subtree `n` from the forest
(under the global id-uniqueness invariant), `getNode` afterwards returns
the absent indicator for the removed id and for every id of the detached
subtree — cascading deletion, no orphaned children remain. -/
theorem removeNode_cascades_no_orphans (tree : List Node) (id d : String) (n : Node)
    (hnd : (idsOf tree).Nodup)
    (hrem : (removeNode id tree).1 = some n)
    (hd : d ∈ n.subIds) :
    getNode d (removeNode id tree).2 = none := by
  obtain ⟨hid, hperm⟩ := (removeNode_spec id tree).2 n hrem
  have hmnd : ((idsOf tree : List String) : Multiset String).Nodup :=
    Multiset.coe_nodup.mpr hnd
  rw [hperm, Multiset.coe_add] at hmnd
  have hnodup : (n.subIds ++ idsOf (removeNode id tree).2).Nodup :=
    Multiset.coe_nodup.mp hmnd
  have hdisj := List.disjoint_of_nodup_append hnodup
  exact (getNode_eq_none_iff d _).mpr (fun hc => hdisj hd hc)

theorem removeNode_cascades_no_orphans_witness :
    (idsOf [folderNode "f" "S" [rapidNode "c"]]).Nodup ∧
    (removeNode "f" [folderNode "f" "S" [rapidNode "c"]]).1 =
      some (folderNode "f" "S" [rapidNode "c"]) ∧
    "c" ∈ (folderNode "f" "S" [rapidNode "c"]).subIds ∧
    getNode "c" (removeNode "f" [folderNode "f" "S" [rapidNode "c"]]).2 = none := by
  have h1 : (idsOf [folderNode "f" "S" [rapidNode "c"]]).Nodup := by
    simp [idsOf, folderNode, rapidNode]
  have h2 : (removeNode "f" [folderNode "f" "S" [rapidNode "c"]]).1 =
      some (folderNode "f" "S" [rapidNode "c"]) := by
    simp [removeNode, spliceById, folderNode, rapidNode, Node.id]
  have h3 : "c" ∈ (folderNode "f" "S" [rapidNode "c"]).subIds := by
    simp [Node.subIds, folderNode, rapidNode, idsOf]
  exact ⟨h1, h2, h3,
    removeNode_cascades_no_orphans [folderNode "f" "S" [rapidNode "c"]] "f" "c"
      (folderNode "f" "S" [rapidNode "c"]) h1 h2 h3⟩

/-- C8: when `id` is present in the tree but `targetParentId` resolves to
nothing — it is not the root sentinel (nor the empty string, which the code
also treats as root) and is no node's id — `moveNode` detaches the subtree
rooted at `id` and the subsequent insert silently fails, so the subtree is
lost: the result is exactly the post-removal forest, the moved id is gone,
and the call is not a no-op. -/
theorem moveNode_unresolved_target_loses_subtree (tree : List Node)
    (id tgt : String) (idx : Int)
    (hnd : (idsOf tree).Nodup)
    (hin : id ∈ idsOf tree)
    (hr1 : tgt ≠ "root") (hr2 : tgt ≠ "")
    (hout : tgt ∉ idsOf tree) :
    moveNode id tgt idx tree = (removeNode id tree).2 ∧
    id ∉ idsOf (removeNode id tree).2 ∧
    moveNode id tgt idx tree ≠ tree := by
  have hneq : id ≠ tgt := fun h => hout (h ▸ hin)
  have hdesc : isDescendant id tgt tree = false := by
    cases hg : getNode id tree with
    | none => simp [isDescendant, hg]
    | some a =>
      simp only [isDescendant, hg]
      have hnk : tgt ∉ idsOf a.kids := by
        intro hc
        refine hout (getNode_subIds_subset id tree a hg tgt ?_)
        rw [Node.subIds_eq]
        exact List.mem_cons.mpr (Or.inr hc)
      rw [(getNode_eq_none_iff tgt a.kids).mpr hnk]
      rfl
  cases hrem : (removeNode id tree).1 with
  | none =>
    exact absurd hin ((removeNode_spec id tree).1 hrem).2
  | some n =>
    obtain ⟨hid, hperm⟩ := (removeNode_spec id tree).2 n hrem
    have hsubset : ∀ x, x ∈ idsOf (removeNode id tree).2 → x ∈ idsOf tree := by
      intro x hx
      have hms : x ∈ ((idsOf tree : List String) : Multiset String) := by
        rw [hperm]
        exact Multiset.mem_add.mpr (Or.inr (by exact_mod_cast hx))
      exact_mod_cast hms
    have htgt2 : tgt ∉ idsOf (removeNode id tree).2 :=
      fun hc => hout (hsubset tgt hc)
    have hins : insertNode n tgt idx (removeNode id tree).2 =
        (removeNode id tree).2 := by
      rw [insertNode, if_neg (by push_neg; exact ⟨hr1, hr2⟩)]
      rw [(insertInto_spec tgt n idx (removeNode id tree).2).1 htgt2]
    have hmv : moveNode id tgt idx tree = (removeNode id tree).2 := by
      rw [moveNode, if_neg hneq, if_neg (by simp [hdesc])]
      cases hR : removeNode id tree with
      | mk r1 r2 =>
        rw [hR] at hrem hins
        simp only at hrem hins ⊢
        subst hrem
        simpa using hins
    have hidout : id ∉ idsOf (removeNode id tree).2 := by
      have hmnd : ((idsOf tree : List String) : Multiset String).Nodup :=
        Multiset.coe_nodup.mpr hnd
      rw [hperm, Multiset.coe_add] at hmnd
      have hnodup := Multiset.coe_nodup.mp hmnd
      have hdisj := List.disjoint_of_nodup_append hnodup
      refine fun hc => hdisj ?_ hc
      rw [Node.subIds_eq, hid]
      exact List.mem_cons.mpr (Or.inl rfl)
    refine ⟨hmv, hidout, fun hc => ?_⟩
    rw [hmv] at hc
    rw [hc] at hidout
    exact hidout hin

theorem moveNode_unresolved_target_loses_subtree_witness :
    ((idsOf [folderNode "f" "S" [rapidNode "a"]]).Nodup ∧
     "a" ∈ idsOf [folderNode "f" "S" [rapidNode "a"]] ∧
     "zz" ∉ idsOf [folderNode "f" "S" [rapidNode "a"]]) ∧
    moveNode "a" "zz" 5 [folderNode "f" "S" [rapidNode "a"]] =
      (removeNode "a" [folderNode "f" "S" [rapidNode "a"]]).2 ∧
    "a" ∉ idsOf (removeNode "a" [folderNode "f" "S" [rapidNode "a"]]).2 ∧
    moveNode "a" "zz" 5 [folderNode "f" "S" [rapidNode "a"]] ≠
      [folderNode "f" "S" [rapidNode "a"]] := by
  have h1 : (idsOf [folderNode "f" "S" [rapidNode "a"]]).Nodup := by
    simp [idsOf, folderNode, rapidNode]
  have h2 : "a" ∈ idsOf [folderNode "f" "S" [rapidNode "a"]] := by
    simp [idsOf, folderNode, rapidNode]
  have h3 : "zz" ∉ idsOf [folderNode "f" "S" [rapidNode "a"]] := by
    simp [idsOf, folderNode, rapidNode]
  have h := moveNode_unresolved_target_loses_subtree
    [folderNode "f" "S" [rapidNode "a"]] "a" "zz" 5 h1 h2 (by decide) (by decide) h3
  exact ⟨⟨h1, h2, h3⟩, h.1, h.2.1, h.2.2⟩

/-- C3 counterexample: `"rapid-move"` is a non-container catalog kind, yet
`insertNode` into an existing `rapid-move` node is not a no-op — the node
acquires a children sequence holding the inserted node, because the code
only checks that `parentId` resolves to *some* node, never that it is a
container. -/
theorem insertNode_into_non_container_mutates :
    TOOL_BY_ID (rapidNode "a").toolId = some ⟨"rapid-move", false⟩ ∧
    insertNode (rapidNode "n") "a" 0 [rapidNode "a"] =
      [Node.mk "a" "rapid-move" [("X", "1"), ("Y", "2"), ("Z", "3")]
        (some [rapidNode "n"])] ∧
    insertNode (rapidNode "n") "a" 0 [rapidNode "a"] ≠ [rapidNode "a"] := by
  have he : insertNode (rapidNode "n") "a" 0 [rapidNode "a"] =
      [Node.mk "a" "rapid-move" [("X", "1"), ("Y", "2"), ("Z", "3")]
        (some [rapidNode "n"])] := by
    simp [insertNode, insertInto, rapidNode, jsSplice, insertAt]
  refine ⟨by simp [TOOL_BY_ID, TOOLS, rapidNode, Node.toolId], he, ?_⟩
  rw [he]
  simp [rapidNode]

/-- C3 amended: `insertNode(node, parentId, index)` with a `parentId` that
is neither the root sentinel nor the id of *any* existing node is a silent
no-op; but whenever `parentId` resolves to an existing node — container or
not — the insertion proceeds (the forest grows by the inserted subtree's
node count), so resolving to a *container* is not required. -/
theorem insertNode_unresolved_parent_noop (x : Node) (pid : String) (i : Int)
    (tree : List Node) (h1 : pid ≠ "root") (h2 : pid ≠ "") :
    (getNode pid tree = none → insertNode x pid i tree = tree) ∧
    (∀ a, getNode pid tree = some a →
      countAll (insertNode x pid i tree) = nodeCount x + countAll tree) := by
  constructor
  · intro hg
    rw [insertNode, if_neg (by push_neg; exact ⟨h1, h2⟩)]
    rw [(insertInto_spec pid x i tree).1 ((getNode_eq_none_iff pid tree).mp hg)]
  · intro a hg
    rw [insertNode, if_neg (by push_neg; exact ⟨h1, h2⟩)]
    have hm : pid ∈ idsOf tree := by
      by_contra hc
      rw [(getNode_eq_none_iff pid tree).mpr hc] at hg
      exact Option.noConfusion hg
    exact ((insertInto_spec pid x i tree).2 hm).2

theorem insertNode_unresolved_parent_noop_witness :
    ("zz" ≠ "root" ∧ "zz" ≠ "" ∧ getNode "zz" [rapidNode "a"] = none ∧
      insertNode (rapidNode "n") "zz" 0 [rapidNode "a"] = [rapidNode "a"]) ∧
    (getNode "a" [rapidNode "a"] = some (rapidNode "a") ∧
      countAll (insertNode (rapidNode "n") "a" 0 [rapidNode "a"]) =
        nodeCount (rapidNode "n") + countAll [rapidNode "a"]) := by
  have hg1 : getNode "zz" [rapidNode "a"] = none := by
    simp [getNode, rapidNode, Node.id, Node.kids]
  have hg2 : getNode "a" [rapidNode "a"] = some (rapidNode "a") := by
    simp [getNode, rapidNode, Node.id]
  exact ⟨⟨by decide, by decide, hg1,
      (insertNode_unresolved_parent_noop (rapidNode "n") "zz" 0 [rapidNode "a"]
        (by decide) (by decide)).1 hg1⟩,
    ⟨hg2,
      (insertNode_unresolved_parent_noop (rapidNode "n") "a" 0 [rapidNode "a"]
        (by decide) (by decide)).2 (rapidNode "a") hg2⟩⟩

/-- C7 counterexample: on the two-element root sequence `[a, b]`, inserting
at index `-1` does not insert at the front — JavaScript `splice` counts a
negative index back from the end, so the node lands before the last
element. -/
theorem insertNode_negative_index_not_front :
    insertNode (rapidNode "n") "root" (-1) [rapidNode "a", rapidNode "b"] =
      [rapidNode "a", rapidNode "n", rapidNode "b"] ∧
    insertNode (rapidNode "n") "root" (-1) [rapidNode "a", rapidNode "b"] ≠
      [rapidNode "n", rapidNode "a", rapidNode "b"] := by
  have he : insertNode (rapidNode "n") "root" (-1) [rapidNode "a", rapidNode "b"] =
      [rapidNode "a", rapidNode "n", rapidNode "b"] := by
    simp [insertNode, jsSplice, insertAt]
  refine ⟨he, ?_⟩
  rw [he]
  simp [rapidNode]

/-- C7 amended: the insertion index is clamped *above* to the sequence
length — any larger index appends at the end, both at root and inside a
container's children — while an index below zero counts back from the end
of the sequence (JavaScript `splice`), reaching the front only once its
magnitude covers the whole length. -/
theorem insertNode_index_clamping (tree : List Node) (x : Node) (i : Int) :
    ((tree.length : Int) ≤ i → insertNode x "root" i tree = tree ++ [x]) ∧
    (i + (tree.length : Int) ≤ 0 → insertNode x "root" i tree = x :: tree) ∧
    (∀ pid tid ps cs, pid ≠ "root" → pid ≠ "" → ((cs : List Node).length : Int) ≤ i →
      insertNode x pid i [Node.mk pid tid ps (some cs)] =
        [Node.mk pid tid ps (some (cs ++ [x]))]) := by
  refine ⟨fun h => ?_, fun h => ?_, fun pid tid ps cs hp1 hp2 hlen => ?_⟩
  · rw [insertNode, if_pos (Or.inl rfl), jsSplice_big tree i x h]
  · rw [insertNode, if_pos (Or.inl rfl), jsSplice_front tree i x h]
  · rw [insertNode, if_neg (by push_neg; exact ⟨hp1, hp2⟩)]
    rw [insertInto.eq_def]
    simp [jsSplice_big cs i x hlen]

theorem insertNode_index_clamping_witness :
    (((2 : Int) ≤ 99 ∧
        insertNode (rapidNode "n") "root" 99 [rapidNode "a", rapidNode "b"] =
          [rapidNode "a", rapidNode "b", rapidNode "n"]) ∧
      ((-99 : Int) + 2 ≤ 0 ∧
        insertNode (rapidNode "n") "root" (-99) [rapidNode "a", rapidNode "b"] =
          [rapidNode "n", rapidNode "a", rapidNode "b"])) ∧
    insertNode (rapidNode "n") "f" 99 [folderNode "f" "S" [rapidNode "c"]] =
      [Node.mk "f" "folder" [("name", "S"), ("note", "")]
        (some [rapidNode "c", rapidNode "n"])] := by
  have h := insertNode_index_clamping [rapidNode "a", rapidNode "b"] (rapidNode "n")
  have h99 := (h 99).1 (by decide)
  have hm99 := (h (-99)).2.1 (by decide)
  have hc := (insertNode_index_clamping [folderNode "f" "S" [rapidNode "c"]]
    (rapidNode "n") 99).2.2 "f" "folder" [("name", "S"), ("note", "")]
    [rapidNode "c"] (by decide) (by decide) (by decide)
  exact ⟨⟨⟨by decide, h99⟩, ⟨by decide, hm99⟩⟩, by simpa [folderNode] using hc⟩

/-- C10 counterexample: deleting the folder `f` (removal authorized)
removes the subtree — `getNode` no longer finds the child `c` — yet the id
`c` of the deleted descendant is still present in both the collapsed set
and the expanded set afterwards: only `f` itself was pruned. -/
theorem deleteNode_keeps_descendant_metadata :
    (deleteNode "f"
        ⟨[folderNode "f" "S" [rapidNode "c"]], ["c", "f"], ["c"]⟩).collapsed = ["c"] ∧
    (deleteNode "f"
        ⟨[folderNode "f" "S" [rapidNode "c"]], ["c", "f"], ["c"]⟩).expanded = ["c"] ∧
    getNode "c" (deleteNode "f"
        ⟨[folderNode "f" "S" [rapidNode "c"]], ["c", "f"], ["c"]⟩).tree = none := by
  refine ⟨?_, ?_, ?_⟩ <;>
    simp [deleteNode, getNode, removeNode, spliceById, folderNode, rapidNode,
      Node.id, Node.kids, List.erase]

/-- C10 amended: once the removal is authorized and the id resolves,
`deleteNode` prunes exactly the deleted node's own id from the collapsed
and expanded sets; every other id — in particular every id of a deleted
descendant — survives in both sets (it leaks). -/
theorem deleteNode_prunes_only_own_id (st : AppState) (id : String) (a : Node)
    (hg : getNode id st.tree = some a) :
    (deleteNode id st).collapsed = st.collapsed.erase id ∧
    (deleteNode id st).expanded = st.expanded.erase id ∧
    (∀ d, d ≠ id → d ∈ st.collapsed → d ∈ (deleteNode id st).collapsed) ∧
    (∀ d, d ≠ id → d ∈ st.expanded → d ∈ (deleteNode id st).expanded) := by
  refine ⟨by simp [deleteNode, hg], by simp [deleteNode, hg],
    fun d hne hmem => ?_, fun d hne hmem => ?_⟩ <;>
    (simp only [deleteNode, hg]
     exact (List.mem_erase_of_ne hne).mpr hmem)

theorem deleteNode_prunes_only_own_id_witness :
    getNode "f" [folderNode "f" "S" [rapidNode "c"]] =
      some (folderNode "f" "S" [rapidNode "c"]) ∧
    (deleteNode "f"
        ⟨[folderNode "f" "S" [rapidNode "c"]], ["c", "f"], ["c"]⟩).collapsed =
      ["c", "f"].erase "f" ∧
    "c" ∈ (deleteNode "f"
        ⟨[folderNode "f" "S" [rapidNode "c"]], ["c", "f"], ["c"]⟩).expanded := by
  have hg : getNode "f" [folderNode "f" "S" [rapidNode "c"]] =
      some (folderNode "f" "S" [rapidNode "c"]) := by
    simp [getNode, folderNode, Node.id]
  have h := deleteNode_prunes_only_own_id
    ⟨[folderNode "f" "S" [rapidNode "c"]], ["c", "f"], ["c"]⟩ "f"
    (folderNode "f" "S" [rapidNode "c"]) hg
  exact ⟨hg, h.1, h.2.2.2 "c" (by decide) (by decide)⟩

theorem emitChildren_append (l₁ l₂ : List Node) (ind ld snap delta : Nat) :
    emitChildren (l₁ ++ l₂) ind ld snap delta =
      emitChildren l₁ ind ld snap delta ++ emitChildren l₂ ind ld snap delta := by
  induction l₁ with
  | nil => simp [emitChildren]
  | cons ch rest ih =>
    rw [List.cons_append]
    rw [emitChildren, emitChildren.eq_def (ch :: rest) ind ld snap delta]
    simp only
    rw [ih, List.append_assoc]

/-- C5: a node whose `toolId` does not resolve in the catalog emits exactly
one diagnostic comment line, indented at the context's current level, with
the label counter untouched and none of the node's children processed; a
sibling sequence containing such a node still emits every other sibling
(at any depth, and at the root where the label counter threads through
unchanged), so program generation always completes. -/
theorem emitNode_unknown_tool_diagnostic (n : Node) (indent loopDepth seed : Nat)
    (h : TOOL_BY_ID n.toolId = none) :
    emitNode n indent loopDepth seed =
      ([lineAt indent ("; Unknown node " ++ n.toolId)], seed) ∧
    (∀ (pre post : List Node) (ind ld snap delta : Nat),
      emitChildren (pre ++ n :: post) ind ld snap delta =
        emitChildren pre ind ld snap delta ++
          lineAt (ind + delta) ("; Unknown node " ++ n.toolId) ::
            emitChildren post ind ld snap delta) ∧
    (∀ (post : List Node) (s : Nat),
      emitRoots (n :: post) s =
        lineAt 0 ("; Unknown node " ++ n.toolId) :: emitRoots post s) := by
  have hd : ∀ (i ld s : Nat), emitNode n i ld s =
      ([lineAt i ("; Unknown node " ++ n.toolId)], s) := by
    intro i ld s
    rw [emitNode, h]
  refine ⟨hd indent loopDepth seed, fun pre post ind ld snap delta => ?_,
    fun post s => ?_⟩
  · rw [emitChildren_append]
    rw [emitChildren.eq_def (n :: post) ind ld snap delta]
    simp only [hd]
    rfl
  · rw [emitRoots]
    simp only [hd]
    rfl

theorem emitNode_unknown_tool_diagnostic_witness :
    TOOL_BY_ID (Node.mk "u" "bogus" [] none).toolId = none ∧
    emitNode (Node.mk "u" "bogus" [] none) 2 0 1000 =
      (["    ; Unknown node bogus"], 1000) ∧
    emitRoots [Node.mk "u" "bogus" [] none, rapidNode "a"] 1000 =
      "; Unknown node bogus" :: emitRoots [rapidNode "a"] 1000 := by
  have h : TOOL_BY_ID (Node.mk "u" "bogus" [] none).toolId = none := by
    simp [TOOL_BY_ID, TOOLS, Node.toolId]
  have hmain := emitNode_unknown_tool_diagnostic (Node.mk "u" "bogus" [] none) 2 0 1000 h
  refine ⟨h, ?_, ?_⟩
  · rw [hmain.1]
    simp [lineAt, Node.toolId, String.join]
  · have := hmain.2.2 [rapidNode "a"] 1000
    rw [this]
    simp [lineAt, Node.toolId, String.join, String.empty_append]

/-- The header block of `generateGCode`: fixed except for the date line,
which interpolates the formatted current date. -/
def headerLines (dateStr : String) : List String :=
  [";Renishaw Probe Routine - Generated by Probe Builder",
   ";Program: PROBE_ROUTINE.NC",
   ";Date: " ++ dateStr,
   "",
   ";Initialize program",
   "G0 G17 G40 G49 G80 G90",
   ""]

/-- The fixed footer block of `generateGCode`. -/
def footerLines : List String :=
  [";End of probe routine",
   "G0 G53 Z0.",
   "M30",
   ""]

/-- C9 counterexample: two invocations on the *same* (empty) tree do not
return the identical text when the formatted current date read inside the
header differs — the output is not a function of the tree alone, and the
header block is not identical across invocations. -/
theorem generateGCode_differs_across_dates :
    generateGCode "1/1/2026" [] ≠ generateGCode "1/2/2026" [] := by
  decide

/-- C9 amended: `generateGCode` is a pure function of the tree *and* the
formatted current date: the output is the newline-join of the header block
(fixed except for its date line, the entry at index 2), the concatenation
of the root-level emissions in tree order threading the base context's
label counter from seed 1000, and the fixed footer block. Two invocations
with the same tree and the same date therefore return identical text. -/
theorem generateGCode_pure_in_tree_and_date (d : String) (tree : List Node) :
    generateGCode d tree =
      String.intercalate "\n"
        (headerLines d ++ emitRoots tree 1000 ++ footerLines) ∧
    (headerLines d).eraseIdx 2 = (headerLines "").eraseIdx 2 ∧
    (headerLines d).get? 2 = some (";Date: " ++ d) ∧
    (∀ d', headerLines d = headerLines d' ↔
      ";Date: " ++ d = ";Date: " ++ d') := by
  refine ⟨rfl, rfl, rfl, fun d' => ?_⟩
  constructor
  · intro hc
    have := congrArg (fun l => l.get? 2) hc
    simpa [headerLines] using this
  · intro hc
    simp [headerLines, hc]

theorem if_empty_id (l : String) : (if l = "" then "" else l) = l := by
  by_cases h : l = "" <;> simp [h]

theorem if_empty_append (p l : String) :
    (if l = "" then p else p ++ l) = p ++ l := by
  by_cases h : l = "" <;> simp [h]

/-- C1 counterexample: an `if-block` nested directly inside an `if-block`
at the root. The ancestor's callback obtains label `1000` and the
descendant's callback — reached through `emitChildren` from that ancestor —
also obtains label `1000` (lines 0 and 4, and the duplicated `N1000` jump
targets): the two label numbers are equal, so labels are *not* unique along
this root-to-leaf path. -/
theorem nested_if_blocks_repeat_label :
    emitNode (ifNode "o" [ifNode "i" []]) 0 0 1000 =
      (["IF [#100 GT #101] GOTO 1000",
        "; (IF false → skip children)",
        "GOTO 1000_END",
        "N1000",
        "  IF [#100 GT #101] GOTO 1000",
        "  ; (IF false → skip children)",
        "  GOTO 1000_END",
        "  N1000",
        "  N1000_END",
        "  ",
        "N1000_END",
        ""], 1001) := by
  simp [emitNode, emitRaw, emitChildren, ifNode, TOOL_BY_ID, TOOLS, Node.toolId,
    Node.params, Node.kids, pstr, pfind, lineAt, String.join, String.empty_append,
    if_empty_id, if_empty_append]
  decide

/-- C1 amended: during one emission pass, a descendant container reached
through `emitChildren` restarts label allocation from the seed its
ancestor's wrapper context captured at entry — *before* the ancestor
consumed its own label — so the ancestor and the descendant obtain the
same label number `s` (and forked sibling subtrees, restarting from that
same captured value, may also repeat numbers). Uniqueness holds instead
across root-level nodes, which share the base context's mutable counter:
the pass returns `s + 1`, and a second root-level `if-block` obtains the
distinct label `s + 1`. -/
theorem emit_label_value_copy_semantics (s : Nat) :
    emitNode (ifNode "o" [ifNode "i" []]) 0 0 s =
      (["IF [#100 GT #101] GOTO " ++ toString s,
        "; (IF false → skip children)",
        "GOTO " ++ toString s ++ "_END",
        "N" ++ toString s,
        "  " ++ ("IF [#100 GT #101] GOTO " ++ toString s),
        "  ; (IF false → skip children)",
        "  " ++ ("GOTO " ++ toString s ++ "_END"),
        "  " ++ ("N" ++ toString s),
        "  " ++ ("N" ++ toString s ++ "_END"),
        "  ",
        "N" ++ toString s ++ "_END",
        ""], s + 1) ∧
    emitRoots [ifNode "a" [], ifNode "b" []] s =
      ["IF [#100 GT #101] GOTO " ++ toString s,
       "; (IF false → skip children)",
       "GOTO " ++ toString s ++ "_END",
       "N" ++ toString s,
       "N" ++ toString s ++ "_END",
       "",
       "IF [#100 GT #101] GOTO " ++ toString (s + 1),
       "; (IF false → skip children)",
       "GOTO " ++ toString (s + 1) ++ "_END",
       "N" ++ toString (s + 1),
       "N" ++ toString (s + 1) ++ "_END",
       ""] := by
  constructor
  · simp [emitNode, emitRaw, emitChildren, ifNode, TOOL_BY_ID, TOOLS, Node.toolId,
      Node.params, Node.kids, pstr, pfind, lineAt, String.join, String.empty_append,
      if_empty_id, if_empty_append]
  · simp [emitRoots, emitNode, emitRaw, emitChildren, ifNode, TOOL_BY_ID, TOOLS,
      Node.toolId, Node.params, Node.kids, pstr, pfind, lineAt, String.join,
      String.empty_append, if_empty_id, if_empty_append]

/-- C6 counterexample: a `folder` at the root whose child is a
`rapid-move`. The folder's own banner lines and the child's `G0` line carry
the *same* indentation (none): the folder kind forks its children with
indent delta 0, so a child's lines are not one level deeper than its
container's lines for all container kinds. -/
theorem folder_children_not_indented :
    emitNode (folderNode "f" "Setup A" [rapidNode "r"]) 0 0 1000 =
      ([";===== SETUP A =====",
        "G0 X1 Y2 Z3",
        "",
        ";===== END SETUP A =====",
        ""], 1000) := by
  simp [emitNode, emitRaw, emitChildren, folderNode, rapidNode, TOOL_BY_ID, TOOLS,
    Node.toolId, Node.params, Node.kids, pstr, pfind, porD, lineAt, String.join,
    String.empty_append, String.toUpper, String.map_eq, if_empty_id, if_empty_append]

/-- C6 amended: indentation depends on the container kind and compounds
across levels. A `folder` emits its children at its own indentation (delta
0); an `if-block` at the base context emits its children exactly one level
(two spaces) deeper; but because every enclosing `emitNode` re-applies its
context's indentation to the already-indented child lines, a grandchild
inside two nested `if-block`s at the root carries three units (six spaces)
— `"  " ++ "    "` — rather than two, so indentation is not one level per
nesting depth for all container kinds. -/
theorem emit_indentation_by_container_kind (x y z : String) :
    emitNode (folderNode "f" "Setup A"
        [Node.mk "r" "rapid-move" [("X", x), ("Y", y), ("Z", z)] none]) 0 0 1000 =
      ([";===== SETUP A =====",
        "G0 X" ++ x ++ " Y" ++ y ++ " Z" ++ z,
        "",
        ";===== END SETUP A =====",
        ""], 1000) ∧
    emitNode (ifNode "o"
        [Node.mk "r" "rapid-move" [("X", x), ("Y", y), ("Z", z)] none]) 0 0 1000 =
      (["IF [#100 GT #101] GOTO 1000",
        "; (IF false → skip children)",
        "GOTO 1000_END",
        "N1000",
        "  " ++ ("G0 X" ++ x ++ " Y" ++ y ++ " Z" ++ z),
        "  ",
        "N1000_END",
        ""], 1001) ∧
    emitNode (ifNode "o" [ifNode "i"
        [Node.mk "r" "rapid-move" [("X", x), ("Y", y), ("Z", z)] none]]) 0 0 1000 =
      (["IF [#100 GT #101] GOTO 1000",
        "; (IF false → skip children)",
        "GOTO 1000_END",
        "N1000",
        "  IF [#100 GT #101] GOTO 1000",
        "  ; (IF false → skip children)",
        "  GOTO 1000_END",
        "  N1000",
        "  " ++ ("    " ++ ("G0 X" ++ x ++ " Y" ++ y ++ " Z" ++ z)),
        "  " ++ "    ",
        "  N1000_END",
        "  ",
        "N1000_END",
        ""], 1001) := by
  refine ⟨?_, ?_, ?_⟩
  · simp [emitNode, emitRaw, emitChildren, folderNode, TOOL_BY_ID, TOOLS,
      Node.toolId, Node.params, Node.kids, pstr, pfind, porD, lineAt, String.join,
      String.empty_append, String.toUpper, String.map_eq, if_empty_id,
      if_empty_append]
  · simp [emitNode, emitRaw, emitChildren, ifNode, TOOL_BY_ID, TOOLS, Node.toolId,
      Node.params, Node.kids, pstr, pfind, lineAt, String.join, String.empty_append,
      if_empty_id, if_empty_append]
    decide
  · simp [emitNode, emitRaw, emitChildren, ifNode, TOOL_BY_ID, TOOLS, Node.toolId,
      Node.params, Node.kids, pstr, pfind, lineAt, String.join, String.empty_append,
      if_empty_id, if_empty_append]
    decide
